import Mathlib

/-!
Verification of the markdown section chunker
(`src/chunker/markdown_section_chunker.py`, `src/chunker/base.py`,
`src/chunker/utils.py`, `src/chunker/types.py`).

Python strings are modelled as `List Char`.  External collaborators
(the mistune block parser, the langchain recursive text splitter and the
Python standard-library HTML unescaper) are modelled from the spec and
are marked as such in their doc comments; everything else is a direct
translation of the repository's source.
-/

namespace Chunker

/-- A Python string, modelled as its sequence of characters. -/
abbrev Str := List Char

/-- Coerce a Lean string literal into the model type. -/
def ofStr (s : String) : Str := s.data

/-- Python `str.strip()`: drop leading and trailing whitespace. -/
def pyStrip (s : Str) : Str :=
  ((s.dropWhile Char.isWhitespace).reverse.dropWhile Char.isWhitespace).reverse

/-- The non-whitespace characters of a string, in order.  Two strings that
agree under `nonWS` differ only in whitespace. -/
def nonWS (s : Str) : Str := s.filter (fun c => !c.isWhitespace)

/-- A block-level token produced by the Block Parser: a heading with its
level and rendered markdown text, or a non-heading content block with its
rendered markdown text. -/
inductive Token where
  | heading (level : Int) (text : Str)
  | content (text : Str)
deriving DecidableEq, Repr

/-- The rendered text of a non-heading token, if the token is not a heading
(mirrors the non-heading branch of `_parse_markdown_into_sections`). -/
def Token.contentText : Token → Option Str
  | .heading _ _ => none
  | .content t => some t

/-- `MarkdownSection` from `src/chunker/types.py`: a heading and the
content and subsections that follow it. -/
inductive MarkdownSection where
  | mk (title : Str) (title_url : Option Str) (content : Str) (level : Int)
      (sub_sections : List MarkdownSection)
deriving Repr

def MarkdownSection.title : MarkdownSection → Str
  | .mk t _ _ _ _ => t

def MarkdownSection.title_url : MarkdownSection → Option Str
  | .mk _ u _ _ _ => u

def MarkdownSection.content : MarkdownSection → Str
  | .mk _ _ c _ _ => c

def MarkdownSection.level : MarkdownSection → Int
  | .mk _ _ _ l _ => l

def MarkdownSection.sub_sections : MarkdownSection → List MarkdownSection
  | .mk _ _ _ _ subs => subs

/-- `Chunk` from `src/chunker/types.py`. -/
structure Chunk where
  content : Str
  original_content : Str
  original_title : Str
  root_title : Str
deriving DecidableEq, Repr

/-! ### Title extraction (`_maybe_extract_title_url_from_heading`, `sanitize_title`) -/

/-- Hexadecimal digit test for numeric character references. -/
def isHexChar (c : Char) : Bool :=
  c.isDigit || ('a' ≤ c && c ≤ 'f') || ('A' ≤ c && c ≤ 'F')

/-- Value of a hexadecimal digit. -/
def hexVal (c : Char) : Nat :=
  if c.isDigit then c.toNat - 48
  else if 'a' ≤ c then c.toNat - 87
  else c.toNat - 55

/-- Decode the body of one `&...;` HTML character reference. -/
def decodeEntity (name : Str) : Option Char :=
  if name = ofStr "amp" then some '&'
  else if name = ofStr "lt" then some '<'
  else if name = ofStr "gt" then some '>'
  else if name = ofStr "quot" then some '"'
  else
    match name with
    | '#' :: 'x' :: ds =>
      if !ds.isEmpty && ds.all isHexChar then
        some (Char.ofNat (ds.foldl (fun acc c => 16 * acc + hexVal c) 0 % 1114112))
      else none
    | '#' :: ds =>
      if !ds.isEmpty && ds.all Char.isDigit then
        some (Char.ofNat (ds.foldl (fun acc c => 10 * acc + (c.toNat - 48)) 0 % 1114112))
      else none
    | _ => none

/-- Modelled from the spec: the Python standard library function
`html.unescape` used by `sanitize_title` — HTML character references such as
`&#x27;` are decoded to their characters; text without an ampersand is
returned unchanged.  Only the `;`-terminated numeric forms and common named
entities are modelled.  The second argument holds the characters read so far
(reversed) of a reference opened by a `&`, if one is open. -/
def unescapeAux : Str → Option Str → Str
  | [], none => []
  | [], some buf => '&' :: buf.reverse
  | c :: rest, none =>
    if c = '&' then unescapeAux rest (some [])
    else c :: unescapeAux rest none
  | c :: rest, some buf =>
    if c = ';' then
      match decodeEntity buf.reverse with
      | some d => d :: unescapeAux rest none
      | none => ('&' :: buf.reverse ++ [';']) ++ unescapeAux rest none
    else if c = '&' then ('&' :: buf.reverse) ++ unescapeAux rest (some [])
    else unescapeAux rest (some (c :: buf))

/-- Entry point of the modelled `html.unescape`. -/
def htmlUnescape (s : Str) : Str := unescapeAux s none

/-- `sanitize_title` from `src/chunker/utils.py`:
`html.unescape(heading).replace("#", "").strip()`. -/
def sanitize_title (heading : Str) : Str :=
  pyStrip ((htmlUnescape heading).filter (fun c => c ≠ '#'))

/-- The `is_heading_a_link` check inside `_maybe_extract_title_url_from_heading`:
the heading matches `^\s*#*\s*\[` and contains a match of `\)\s*$`, i.e. after
skipping leading whitespace, hash marks and whitespace it starts with a `[`,
and after dropping trailing whitespace it ends with a `)`. -/
def is_heading_a_link (s : Str) : Bool :=
  (((s.dropWhile Char.isWhitespace).dropWhile (· = '#')).dropWhile
      Char.isWhitespace).head? = some '[' &&
    (s.reverse.dropWhile Char.isWhitespace).head? = some ')'

/-- Helper for the regex `\[(.*?)\]\((.*?)\)`: split the input at the first
`)` reachable without crossing a newline, returning the characters before it. -/
def scanToParen : Str → Option Str
  | [] => none
  | ')' :: _ => some []
  | '\n' :: _ => none
  | c :: rest => (scanToParen rest).map (c :: ·)

/-- Helper for the regex `\[(.*?)\]\((.*?)\)`, positioned just after a `[`:
lazily grow the first capture group until a `](` is found that is followed by
a `)` reachable without a newline; mirrors the backtracking behaviour of
Python `re` with non-greedy groups, where `.` does not match a newline. -/
def scanBracket : Str → Option (Str × Str)
  | [] => none
  | '\n' :: _ => none
  | ']' :: rest =>
    match rest with
    | '(' :: more =>
      match scanToParen more with
      | some u => some ([], u)
      | none => (scanBracket rest).map (fun p => (']' :: p.1, p.2))
    | _ => (scanBracket rest).map (fun p => (']' :: p.1, p.2))
  | c :: rest => (scanBracket rest).map (fun p => (c :: p.1, p.2))

/-- `re.search(r"\[(.*?)\]\((.*?)\)", s)`: the leftmost markdown link
occurrence, returning (link text, link url). -/
def findLink : Str → Option (Str × Str)
  | [] => none
  | '[' :: rest =>
    match scanBracket rest with
    | some p => some p
    | none => findLink rest
  | _ :: rest => findLink rest

/-- `_maybe_extract_title_url_from_heading` from
`src/chunker/markdown_section_chunker.py`. -/
def maybe_extract_title_url_from_heading (heading : Str) : Str × Option Str :=
  if !is_heading_a_link heading then
    (sanitize_title heading, none)
  else
    match findLink heading with
    | some (t, u) => (sanitize_title t, some u)
    | none => (sanitize_title heading, none)

/-! ### Section Builder (`_parse_markdown_into_sections`) -/

/-- Replace the `content` field of a section, keeping everything else. -/
def MarkdownSection.withContent : MarkdownSection → Str → MarkdownSection
  | .mk t u _ l subs, c => .mk t u c l subs

/-- Apply `f` to the last element of a list (Python `sections[-1] = ...`). -/
def updateLast {α : Type} (f : α → α) : List α → List α
  | [] => []
  | [a] => [f a]
  | a :: b :: rest => a :: updateLast f (b :: rest)

/-- The token-folding loop of `_parse_markdown_into_sections` (lines 58–89):
headings open a new flat section; content is appended to the last section,
or to a fresh implicit root section (empty title, level 1) if none exists. -/
def foldTokensAux (sections : List MarkdownSection) : List Token → List MarkdownSection
  | [] => sections
  | Token.heading lvl text :: rest =>
    let p := maybe_extract_title_url_from_heading text
    foldTokensAux (sections ++ [MarkdownSection.mk p.1 p.2 [] lvl []]) rest
  | Token.content text :: rest =>
    let tm := pyStrip text
    if sections.length > 0 then
      foldTokensAux
        (updateLast (fun s => s.withContent (pyStrip (s.content ++ '\n' :: tm))) sections) rest
    else
      foldTokensAux [MarkdownSection.mk [] none tm 1 []] rest

/-- Append a child as the last sub-section of a parent
(`sections[index - 1].sub_sections.append(sections[index])`). -/
def attachLast (parent child : MarkdownSection) : MarkdownSection :=
  match parent with
  | .mk t u c l subs => .mk t u c l (subs ++ [child])

/-- The collapse pass of `_parse_markdown_into_sections` (lines 91–101):
scan right to left; when a section's level is strictly greater than its left
neighbour's, attach it to that neighbour and restart from the new last index. -/
def collapseLoop (sections : List MarkdownSection) (index : Nat) : List MarkdownSection :=
  if index = 0 then sections
  else if hlt : index < sections.length then
    if sections[index - 1].level < sections[index].level then
      collapseLoop
        ((sections.set (index - 1)
            (attachLast sections[index - 1] sections[index])).eraseIdx index)
        (((sections.set (index - 1)
            (attachLast sections[index - 1] sections[index])).eraseIdx index).length - 1)
    else
      collapseLoop sections (index - 1)
  else sections
termination_by (sections.length, index)
decreasing_by
  · have hset : (sections.set (index - 1) (attachLast (sections.get ⟨index - 1, by omega⟩)
        (sections.get ⟨index, hlt⟩))).length = sections.length :=
      List.length_set _ _ _
    have herase :
        ((sections.set (index - 1) (attachLast (sections.get ⟨index - 1, by omega⟩)
            (sections.get ⟨index, hlt⟩))).eraseIdx index).length + 1 =
          sections.length := by
      rw [List.length_eraseIdx_add_one (by omega)]
      omega
    apply Prod.Lex.left
    simp only [List.get_eq_getElem] at hset herase
    omega
  · apply Prod.Lex.right
    omega

/-- `_parse_markdown_into_sections` from
`src/chunker/markdown_section_chunker.py`: fold the token stream into flat
sections, then collapse the flat list into a forest of top-level sections. -/
def parse_markdown_into_sections (tokens : List Token) : List MarkdownSection :=
  let sections := foldTokensAux [] tokens
  collapseLoop sections (sections.length - 1)

/-! ### Block Parser model -/

/-- Split a string into its lines at `'\n'` (the separators are removed);
a non-newline character is prepended to the first line of the split tail. -/
def splitLines : Str → List Str
  | [] => [[]]
  | c :: rest =>
    if c = '\n' then [] :: splitLines rest
    else (c :: (splitLines rest).headD []) :: (splitLines rest).tail

/-- Modelled from the spec: heading recognition by the Block Parser — a line
whose leading run of `#` markers has length 1 through 6 and is followed by a
space or the end of the line. -/
def headingLevel (line : Str) : Option Int :=
  let hashes := line.takeWhile (· = '#')
  let rest := line.dropWhile (· = '#')
  if 1 ≤ hashes.length ∧ hashes.length ≤ 6 ∧ (rest = [] ∨ rest.head? = some ' ') then
    some (hashes.length : Int)
  else none

mutual
/-- Modelled from the spec: the Block Parser (external collaborator, the
CommonMark-compatible mistune parser): turns markdown text into an ordered
stream of tokens, each a heading (with its level) or a non-heading content
block re-renderable to markdown; consecutive non-blank non-heading lines
form one content block. -/
def blockParseLines : List Str → List Token
  | [] => []
  | line :: rest =>
    match headingLevel line with
    | some lvl => Token.heading lvl line :: blockParseLines rest
    | none =>
      if (pyStrip line).isEmpty then blockParseLines rest
      else blockParseAccum line rest

/-- Accumulate a content block of consecutive non-blank non-heading lines. -/
def blockParseAccum (para : Str) : List Str → List Token
  | [] => [Token.content para]
  | line :: rest =>
    match headingLevel line with
    | some lvl => Token.content para :: Token.heading lvl line :: blockParseLines rest
    | none =>
      if (pyStrip line).isEmpty then Token.content para :: blockParseLines rest
      else blockParseAccum (para ++ '\n' :: line) rest
end

/-- The full Block Parser model on a markdown string. -/
def blockParse (content : Str) : List Token := blockParseLines (splitLines content)

/-! ### Text Splitter model (`_split_text`) -/

/-- Greedily merge consecutive lines into pieces whose joined length stays at
or below the ceiling; each merge reinserts the newline it was split at. -/
def mergeLinesAux (maxChars : Int) (cur : Str) : List Str → List Str
  | [] => [cur]
  | l :: rest =>
    if (cur.length : Int) + 1 + l.length ≤ maxChars then
      mergeLinesAux maxChars (cur ++ '\n' :: l) rest
    else
      cur :: mergeLinesAux maxChars l rest

/-- Modelled from the spec: the Text Splitter used by `_split_text` (external
collaborator, the langchain recursive character splitter with no overlap):
breaks oversized plain text into ordered pieces at or below the character
ceiling, splitting at line boundaries; a single indivisible unit (a line
longer than the ceiling, e.g. one oversized table row) is returned unchanged
rather than failing. -/
def split_text (text : Str) (maxChars : Int) : List Str :=
  match splitLines text with
  | [] => []
  | l :: rest => mergeLinesAux maxChars l rest

/-! ### Section Chunker (`_chunk_markdown_section` and `split`) -/

/-- Python truthiness of an `Optional[str]`: `None` and `""` are falsy. -/
def strOptTruthy : Option Str → Bool
  | none => false
  | some s => !s.isEmpty

/-- Python truthiness of an `Optional[int]`: `None` and `0` are falsy. -/
def intOptTruthy : Option Int → Bool
  | none => false
  | some n => n != 0

/-- Python truthiness of the optional split label. -/
def natOptTruthy : Option Nat → Bool
  | none => false
  | some n => n != 0

/-- `_create_chunk_heading`: join prefix and title with a " > " separator
when both are truthy. -/
def create_chunk_heading (hpfx : Option Str) (title : Str) : Str :=
  if strOptTruthy hpfx && title.length > 0 then hpfx.getD [] ++ ofStr " > " ++ title
  else if strOptTruthy hpfx then hpfx.getD []
  else if title.length > 0 then title
  else []

/-- `_create_root_heading`: the title when non-empty, else the empty string. -/
def create_root_heading (title : Str) : Str :=
  if title.length > 0 then title else []

/-- `_format_split_title`: append a 1-based "Part i" label to a truthy heading. -/
def format_split_title (heading : Str) (split : Nat) : Str :=
  if !heading.isEmpty then heading ++ ofStr " Part " ++ ofStr (toString split) else []

/-- `_format_section_with_heading`: synthesize the leading `# ...` heading
line, with the optional split label. -/
def format_section_with_heading (heading content : Str) (split : Option Nat) : Str :=
  if !heading.isEmpty && natOptTruthy split then
    '#' :: ' ' :: (format_split_title heading (split.getD 0) ++ '\n' :: content)
  else if !heading.isEmpty then
    '#' :: ' ' :: (heading ++ '\n' :: content)
  else content

/-- Lines 217–219 of `_chunk_markdown_section`: on the first call of the
recursion (no incoming heading_parent) fix the root title from the section's
own title; deeper calls receive and keep the already-fixed value. -/
def resolveRootTitle (hpar : Option Str) (title : Str) : Str :=
  match hpar with
  | none => create_root_heading title
  | some h => h

/-- The chunk-emission step for one section's own content
(`_chunk_markdown_section` lines 221–253): split oversized content into
"Part i" chunks, otherwise emit the single chunk for the section. -/
def ownChunks (maxChars : Option Int) (heading title content hpar : Str) : List Chunk :=
  if intOptTruthy maxChars && (content.length : Int) > maxChars.getD 0 then
    (split_text content (maxChars.getD 0)).enum.map (fun p =>
      Chunk.mk (format_section_with_heading heading p.2 (some (p.1 + 1)))
        p.2 (format_split_title title (p.1 + 1)) hpar)
  else
    [Chunk.mk (format_section_with_heading heading content none) content
      (create_root_heading title) hpar]

mutual
/-- `_chunk_markdown_section` from `src/chunker/markdown_section_chunker.py`:
emit the section's own chunk(s), then recurse into the subsections passing
the composed heading as prefix and the fixed root heading as parent. -/
def chunk_markdown_section (maxChars : Option Int) (hpfx : Option Str)
    (hpar : Option Str) : MarkdownSection → List Chunk
  | .mk title _url content _lvl subs =>
    ownChunks maxChars (create_chunk_heading hpfx title) title content
        (resolveRootTitle hpar title) ++
      chunkSubsections maxChars (some (create_chunk_heading hpfx title))
        (some (resolveRootTitle hpar title)) subs

/-- Chunk a list of sibling subsections in document order. -/
def chunkSubsections (maxChars : Option Int) (hpfx : Option Str)
    (hpar : Option Str) : List MarkdownSection → List Chunk
  | [] => []
  | s :: rest =>
    chunk_markdown_section maxChars hpfx hpar s ++ chunkSubsections maxChars hpfx hpar rest
end

/-- `MarkdownSectionChunker.split`: parse the markdown into top-level
sections and chunk each in order with the configured `max_chunk_size`.
`BaseChunker.__init__` stores `max_chunk_size` without validation, so the
configured value is passed through unchanged. -/
def split (maxChunkSize : Int) (content : Str) : List Chunk :=
  List.flatten ((parse_markdown_into_sections (blockParse content)).map
    (chunk_markdown_section (some maxChunkSize) none none))

/-! ### Derived notions used in the statements -/

/-- Concatenation of the `content` fields of a flat section list. -/
def flatContents (l : List MarkdownSection) : Str :=
  List.flatten (l.map MarkdownSection.content)

mutual
/-- Pre-order concatenation of all content in a section tree. -/
def treeContents : MarkdownSection → Str
  | .mk _ _ c _ subs => c ++ forestContents subs

/-- Pre-order concatenation of all content in a forest, in document order. -/
def forestContents : List MarkdownSection → Str
  | [] => []
  | s :: rest => treeContents s ++ forestContents rest
end

/-- Concatenation of the `original_content` fields of a chunk list, in
emission order. -/
def origContents (chunks : List Chunk) : Str :=
  List.flatten (chunks.map Chunk.original_content)

/-- The non-heading text of a token stream: the concatenation of the
rendered text of all content tokens, in order. -/
def tokensText (tokens : List Token) : Str :=
  List.flatten (tokens.filterMap Token.contentText)

/-- All roots of the forest have a level strictly above `l`. -/
def levelsAbove (l : Int) : List MarkdownSection → Bool
  | [] => true
  | s :: rest => decide (l < s.level) && levelsAbove l rest

mutual
/-- The nesting invariant: each child's level is strictly greater than its
parent's level, recursively through the whole tree. -/
def wellNested : MarkdownSection → Bool
  | .mk _ _ _ l subs => levelsAbove l subs && forestWellNested subs

/-- Every tree of the forest is well nested. -/
def forestWellNested : List MarkdownSection → Bool
  | [] => true
  | s :: rest => wellNested s && forestWellNested rest
end

/-- Strict descendant relation on sections: `Desc a b` holds when `b` lies
strictly below `a` in the section tree. -/
inductive Desc : MarkdownSection → MarkdownSection → Prop
  | child {a b : MarkdownSection} : b ∈ a.sub_sections → Desc a b
  | step {a c b : MarkdownSection} : c ∈ a.sub_sections → Desc c b → Desc a b

/-- A concrete leaf section, used as a subsection in witnesses. -/
def secB : MarkdownSection := MarkdownSection.mk (ofStr "B") none (ofStr "y") 2 []

/-- A concrete two-level section tree used in witnesses. -/
def secA : MarkdownSection := MarkdownSection.mk (ofStr "A") none (ofStr "x") 1 [secB]

/-! ## Theorems

### Whitespace lemmas -/

theorem nonWS_append (a b : Str) : nonWS (a ++ b) = nonWS a ++ nonWS b := by
  simp [nonWS]

theorem nonWS_cons (c : Char) (s : Str) :
    nonWS (c :: s) = if c.isWhitespace then nonWS s else c :: nonWS s := by
  simp only [nonWS, List.filter_cons]
  by_cases h : c.isWhitespace <;> simp [h]

theorem nonWS_dropWhile_ws (l : Str) :
    nonWS (l.dropWhile Char.isWhitespace) = nonWS l := by
  induction l with
  | nil => rfl
  | cons a t ih =>
    rw [List.dropWhile_cons]
    by_cases h : a.isWhitespace
    · rw [if_pos h, ih, nonWS_cons, if_pos h]
    · rw [if_neg h]

theorem nonWS_reverse (l : Str) : nonWS l.reverse = (nonWS l).reverse := by
  simp [nonWS, List.filter_reverse]

theorem nonWS_pyStrip (s : Str) : nonWS (pyStrip s) = nonWS s := by
  unfold pyStrip
  rw [nonWS_reverse, nonWS_dropWhile_ws, nonWS_reverse, nonWS_dropWhile_ws,
    List.reverse_reverse]

theorem nonWS_newline (s : Str) : nonWS ('\n' :: s) = nonWS s := by
  rw [nonWS_cons, if_pos (by decide)]

/-! ### Text Splitter lemmas -/

theorem splitLines_ne_nil (s : Str) : splitLines s ≠ [] := by
  cases s with
  | nil => simp [splitLines]
  | cons a t =>
    simp only [splitLines]
    by_cases h : a = '\n' <;> simp [h]

theorem flatten_splitLines (s : Str) :
    List.flatten (splitLines s) = s.filter (fun c => c ≠ '\n') := by
  induction s with
  | nil => rfl
  | cons a t ih =>
    obtain ⟨l, ls, hls⟩ := List.exists_cons_of_ne_nil (splitLines_ne_nil t)
    simp only [splitLines]
    by_cases h : a = '\n'
    · subst h
      simp [List.filter_cons, ih]
    · rw [if_neg h, hls]
      simp only [List.headD_cons, List.tail_cons, List.flatten_cons, List.filter_cons]
      have : (decide (a ≠ '\n')) = true := by simp [h]
      rw [this]
      simp only [List.cons_append]
      rw [← List.flatten_cons, ← hls, ih]
      simp

theorem nonWS_flatten_splitLines (s : Str) :
    nonWS (List.flatten (splitLines s)) = nonWS s := by
  rw [flatten_splitLines]
  simp only [nonWS, List.filter_filter]
  apply List.filter_congr
  intro c _
  by_cases h : c = '\n'
  · subst h; decide
  · simp [h]

theorem mergeLinesAux_nonWS (m : Int) (ls : List Str) : ∀ (cur : Str),
    nonWS (List.flatten (mergeLinesAux m cur ls)) =
      nonWS cur ++ nonWS (List.flatten ls) := by
  induction ls with
  | nil => intro cur; simp [mergeLinesAux, nonWS]
  | cons l rest ih =>
    intro cur
    simp only [mergeLinesAux]
    by_cases h : (cur.length : Int) + 1 + l.length ≤ m
    · rw [if_pos h, ih, nonWS_append, nonWS_newline]
      simp [nonWS_append]
    · rw [if_neg h]
      simp [nonWS_append, ih]

theorem split_text_nonWS (t : Str) (m : Int) :
    nonWS (List.flatten (split_text t m)) = nonWS t := by
  rw [split_text]
  obtain ⟨l, ls, hls⟩ := List.exists_cons_of_ne_nil (splitLines_ne_nil t)
  rw [hls]
  rw [mergeLinesAux_nonWS]
  have := nonWS_flatten_splitLines t
  rw [hls] at this
  simpa [nonWS_append] using this

theorem splitLines_no_newline (s : Str) : ∀ l ∈ splitLines s, '\n' ∉ l := by
  induction s with
  | nil => simp [splitLines]
  | cons a t ih =>
    simp only [splitLines]
    by_cases h : a = '\n'
    · rw [if_pos h]
      intro l hl
      rcases List.mem_cons.mp hl with rfl | hl
      · simp
      · exact ih l hl
    · obtain ⟨l0, ls, hls⟩ := List.exists_cons_of_ne_nil (splitLines_ne_nil t)
      rw [if_neg h, hls]
      simp only [List.headD_cons, List.tail_cons]
      intro l hl
      rcases List.mem_cons.mp hl with rfl | hl
      · intro hmem
        rcases List.mem_cons.mp hmem with heq | hmem
        · exact h heq.symm
        · exact ih l0 (by rw [hls]; exact List.mem_cons_self _ _) hmem
      · exact ih l (by rw [hls]; exact List.mem_cons_of_mem _ hl)

theorem mergeLinesAux_bound (m : Int) (ls : List Str) : ∀ (cur : Str),
    ('\n' ∉ cur ∨ (cur.length : Int) ≤ m) → (∀ l ∈ ls, '\n' ∉ l) →
    ∀ p ∈ mergeLinesAux m cur ls, (p.length : Int) ≤ m ∨ '\n' ∉ p := by
  induction ls with
  | nil =>
    intro cur hcur _ p hp
    simp only [mergeLinesAux, List.mem_singleton] at hp
    subst hp
    exact hcur.symm.imp id id
  | cons l rest ih =>
    intro cur hcur hls p hp
    simp only [mergeLinesAux] at hp
    by_cases h : (cur.length : Int) + 1 + l.length ≤ m
    · rw [if_pos h] at hp
      refine ih _ (Or.inr ?_) (fun x hx => hls x (List.mem_cons_of_mem _ hx)) p hp
      simp only [List.length_append, List.length_cons]
      push_cast
      omega
    · rw [if_neg h] at hp
      rcases List.mem_cons.mp hp with rfl | hp
      · exact hcur.symm.imp id id
      · exact ih l (Or.inl (hls l (List.mem_cons_self _ _)))
          (fun x hx => hls x (List.mem_cons_of_mem _ hx)) p hp

theorem split_text_bound (t : Str) (m : Int) :
    ∀ p ∈ split_text t m, (p.length : Int) ≤ m ∨ '\n' ∉ p := by
  rw [split_text]
  obtain ⟨l, ls, hls⟩ := List.exists_cons_of_ne_nil (splitLines_ne_nil t)
  rw [hls]
  have hnl := splitLines_no_newline t
  rw [hls] at hnl
  exact mergeLinesAux_bound m ls l
    (Or.inl (hnl l (List.mem_cons_self _ _)))
    (fun x hx => hnl x (List.mem_cons_of_mem _ hx))

/-! ### Section Builder lemmas: token folding -/

theorem flatContents_append (a b : List MarkdownSection) :
    flatContents (a ++ b) = flatContents a ++ flatContents b := by
  simp [flatContents]

theorem flatContents_cons (s : MarkdownSection) (l : List MarkdownSection) :
    flatContents (s :: l) = s.content ++ flatContents l := by
  simp [flatContents]

theorem updateLast_contents (tm : Str) : ∀ (l : List MarkdownSection), l ≠ [] →
    nonWS (flatContents (updateLast
      (fun s => s.withContent (pyStrip (s.content ++ '\n' :: tm))) l)) =
    nonWS (flatContents l) ++ nonWS tm := by
  intro l
  induction l with
  | nil => intro h; exact absurd rfl h
  | cons a rest ih =>
    intro _
    cases rest with
    | nil =>
      obtain ⟨t, u, ct, lv, subs⟩ := a
      simp only [updateLast, MarkdownSection.withContent, MarkdownSection.content,
        flatContents, List.map_cons, List.map_nil, List.flatten_cons, List.flatten_nil,
        List.append_nil]
      rw [nonWS_pyStrip, nonWS_append, nonWS_newline]
    | cons b rest2 =>
      simp only [updateLast, flatContents_cons]
      rw [nonWS_append, nonWS_append, ih (by simp), List.append_assoc]
      simp [flatContents_cons]

theorem foldTokensAux_contents : ∀ (ts : List Token) (acc : List MarkdownSection),
    nonWS (flatContents (foldTokensAux acc ts)) =
      nonWS (flatContents acc) ++ nonWS (tokensText ts) := by
  intro ts
  induction ts with
  | nil => intro acc; simp [foldTokensAux, tokensText, nonWS]
  | cons tk rest ih =>
    intro acc
    cases tk with
    | heading lvl text =>
      simp only [foldTokensAux]
      rw [ih, flatContents_append]
      simp only [tokensText, List.filterMap_cons, Token.contentText]
      rw [nonWS_append]
      simp [flatContents, MarkdownSection.content, nonWS]
    | content text =>
      simp only [foldTokensAux]
      by_cases h : acc.length > 0
      · rw [if_pos h, ih, updateLast_contents _ acc (by
          intro hnil
          rw [hnil] at h
          simp at h)]
        simp only [tokensText, List.filterMap_cons, Token.contentText, List.flatten_cons]
        rw [nonWS_append, nonWS_pyStrip, List.append_assoc]
      · rw [if_neg h, ih]
        have hnil : acc = [] := List.length_eq_zero.mp (by omega)
        subst hnil
        simp only [tokensText, List.filterMap_cons, Token.contentText, List.flatten_cons]
        rw [nonWS_append]
        simp only [flatContents, List.map_cons, List.map_nil, MarkdownSection.content,
          List.flatten_cons, List.flatten_nil, List.append_nil]
        rw [nonWS_pyStrip]
        simp [nonWS]

/-- Every section produced by the folding loop is a leaf (no subsections yet);
consequently its tree contents equal its own content. -/
theorem foldTokensAux_leaves : ∀ (ts : List Token) (acc : List MarkdownSection),
    (∀ s ∈ acc, s.sub_sections = []) →
    ∀ s ∈ foldTokensAux acc ts, s.sub_sections = [] := by
  intro ts
  induction ts with
  | nil => intro acc hacc; exact hacc
  | cons tk rest ih =>
    intro acc hacc
    cases tk with
    | heading lvl text =>
      simp only [foldTokensAux]
      refine ih _ ?_
      intro s hs
      rcases List.mem_append.mp hs with hs | hs
      · exact hacc s hs
      · rcases List.mem_singleton.mp hs with rfl
        rfl
    | content text =>
      simp only [foldTokensAux]
      by_cases h : acc.length > 0
      · rw [if_pos h]
        refine ih _ ?_
        intro s hs
        have hup : ∀ (f : MarkdownSection → MarkdownSection) (l : List MarkdownSection),
            (∀ x ∈ l, (f x).sub_sections = []) → (∀ x ∈ l, x.sub_sections = []) →
            ∀ x ∈ updateLast f l, x.sub_sections = [] := by
          intro f l
          induction l with
          | nil => intro _ _ x hx; simp [updateLast] at hx
          | cons a t iht =>
            intro hf hl x hx
            cases t with
            | nil =>
              simp only [updateLast, List.mem_singleton] at hx
              subst hx
              exact hf a (List.mem_cons_self _ _)
            | cons b t2 =>
              simp only [updateLast] at hx
              rcases List.mem_cons.mp hx with rfl | hx
              · exact hl x (List.mem_cons_self _ _)
              · exact iht (fun y hy => hf y (List.mem_cons_of_mem _ hy))
                  (fun y hy => hl y (List.mem_cons_of_mem _ hy)) x hx
        refine hup _ _ ?_ hacc s hs
        intro x hx
        obtain ⟨t, u, ct, lv, subs⟩ := x
        have := hacc _ hx
        simpa [MarkdownSection.withContent, MarkdownSection.sub_sections] using this
      · rw [if_neg h]
        refine ih _ ?_
        intro s hs
        rcases List.mem_singleton.mp hs with rfl
        rfl

/-- On a list of leaves the pre-order contents coincide with the flat
concatenation of the content fields. -/
theorem forestContents_of_leaves : ∀ (l : List MarkdownSection),
    (∀ s ∈ l, s.sub_sections = []) → forestContents l = flatContents l := by
  intro l
  induction l with
  | nil => simp [forestContents, flatContents]
  | cons s rest ih =>
    intro hl
    obtain ⟨t, u, ct, lv, subs⟩ := s
    have hsub : subs = [] := hl _ (List.mem_cons_self _ _)
    subst hsub
    simp only [forestContents, treeContents, flatContents_cons]
    rw [ih (fun x hx => hl x (List.mem_cons_of_mem _ hx))]
    simp [MarkdownSection.content, forestContents]

/-! ### Section Builder lemmas: the collapse pass -/

theorem forestContents_append (a b : List MarkdownSection) :
    forestContents (a ++ b) = forestContents a ++ forestContents b := by
  induction a with
  | nil => simp [forestContents]
  | cons s rest ih => simp [forestContents, ih]

theorem treeContents_attachLast (p c : MarkdownSection) :
    treeContents (attachLast p c) = treeContents p ++ treeContents c := by
  obtain ⟨t, u, ct, l, subs⟩ := p
  simp only [attachLast, treeContents, forestContents_append, forestContents]
  simp [List.append_assoc]

theorem setErase_contents : ∀ (j : Nat) (l : List MarkdownSection)
    (prev cur : MarkdownSection), l[j]? = some prev → l[j + 1]? = some cur →
    forestContents ((l.set j (attachLast prev cur)).eraseIdx (j + 1)) =
      forestContents l := by
  intro j
  induction j with
  | zero =>
    intro l prev cur hp hc
    cases l with
    | nil => simp at hp
    | cons a rest =>
      cases rest with
      | nil => simp at hc
      | cons b rest2 =>
        simp only [List.getElem?_cons_zero, Option.some.injEq] at hp
        simp only [List.getElem?_cons_succ, List.getElem?_cons_zero,
          Option.some.injEq] at hc
        subst hp
        subst hc
        simp only [List.set_cons_zero, List.eraseIdx_cons_succ, List.eraseIdx_cons_zero]
        rw [forestContents, forestContents, forestContents, treeContents_attachLast,
          List.append_assoc]
  | succ j ih =>
    intro l prev cur hp hc
    cases l with
    | nil => simp at hp
    | cons a rest =>
      simp only [List.getElem?_cons_succ] at hp hc
      simp only [List.set_cons_succ, List.eraseIdx_cons_succ]
      rw [forestContents, forestContents, ih rest prev cur hp hc]

theorem collapseLoop_contents (sections : List MarkdownSection) (index : Nat) :
    forestContents (collapseLoop sections index) = forestContents sections := by
  induction sections, index using collapseLoop.induct with
  | case1 sections =>
    rw [collapseLoop.eq_def]
    simp
  | case2 sections index hne hlt hcond ih =>
    rw [collapseLoop.eq_def, if_neg hne, dif_pos hlt, if_pos hcond, ih]
    obtain ⟨j, rfl⟩ : ∃ j, index = j + 1 :=
      ⟨index - 1, (Nat.succ_pred_eq_of_pos (Nat.pos_of_ne_zero hne)).symm⟩
    simp only [Nat.add_sub_cancel]
    exact setErase_contents j sections _ _
      (List.getElem?_eq_getElem (by omega)) (List.getElem?_eq_getElem hlt)
  | case3 sections index hne hlt hcond ih =>
    rw [collapseLoop.eq_def, if_neg hne, dif_pos hlt, if_neg hcond]
    exact ih
  | case4 sections index hne hnlt =>
    rw [collapseLoop.eq_def, if_neg hne, dif_neg hnlt]

/-! ### Section Chunker lemmas -/

theorem chunkSubsections_eq_flatten (m : Option Int) (hpfx hpar : Option Str) :
    ∀ (l : List MarkdownSection),
    chunkSubsections m hpfx hpar l =
      List.flatten (l.map (chunk_markdown_section m hpfx hpar)) := by
  intro l
  induction l with
  | nil => simp [chunkSubsections]
  | cons s rest ih => simp [chunkSubsections, ih]

theorem chunk_markdown_section_unfold (m : Option Int) (hpfx hpar : Option Str)
    (s : MarkdownSection) :
    chunk_markdown_section m hpfx hpar s =
      ownChunks m (create_chunk_heading hpfx s.title) s.title s.content
          (resolveRootTitle hpar s.title) ++
        chunkSubsections m (some (create_chunk_heading hpfx s.title))
          (some (resolveRootTitle hpar s.title)) s.sub_sections := by
  obtain ⟨t, u, c, l, subs⟩ := s
  simp [chunk_markdown_section, MarkdownSection.title, MarkdownSection.content,
    MarkdownSection.sub_sections]

theorem ownChunks_orig (m : Option Int) (heading title content hpar : Str) :
    nonWS (origContents (ownChunks m heading title content hpar)) = nonWS content := by
  unfold ownChunks
  split
  · simp only [origContents, List.map_map]
    rw [show (Chunk.original_content ∘ fun p : Nat × Str =>
        Chunk.mk (format_section_with_heading heading p.2 (some (p.1 + 1))) p.2
          (format_split_title title (p.1 + 1)) hpar) = Prod.snd from rfl]
    rw [List.enum_map_snd, split_text_nonWS]
  · simp [origContents]

theorem ownChunks_root (m : Option Int) (heading title content hpar : Str) :
    ∀ c ∈ ownChunks m heading title content hpar, c.root_title = hpar := by
  intro c hc
  unfold ownChunks at hc
  split at hc
  · obtain ⟨p, hp, rfl⟩ := List.mem_map.mp hc
    rfl
  · rcases List.mem_singleton.mp hc with rfl
    rfl

theorem ownChunks_bound (mi : Int) (hm : 0 < mi) (heading title content hpar : Str) :
    ∀ c ∈ ownChunks (some mi) heading title content hpar,
      (c.original_content.length : Int) ≤ mi ∨ '\n' ∉ c.original_content := by
  intro c hc
  unfold ownChunks at hc
  split at hc
  · obtain ⟨p, hp, rfl⟩ := List.mem_map.mp hc
    have hp2 : p.2 ∈ split_text content mi := by
      have := List.mem_map_of_mem Prod.snd hp
      rwa [List.enum_map_snd] at this
    simpa using split_text_bound content mi p.2 hp2
  · rcases List.mem_singleton.mp hc with rfl
    left
    rename_i hcond
    simp only [intOptTruthy, Option.getD, bne_iff_ne, ne_eq, Bool.and_eq_true,
      decide_eq_true_eq, not_and, not_lt] at hcond
    exact hcond (by omega)

theorem chunk_orig (m : Option Int) (hpfx hpar : Option Str) (s : MarkdownSection) :
    nonWS (origContents (chunk_markdown_section m hpfx hpar s)) =
      nonWS (treeContents s) := by
  refine chunk_markdown_section.induct m
    (fun hpfx hpar s => nonWS (origContents (chunk_markdown_section m hpfx hpar s)) =
      nonWS (treeContents s))
    (fun hpfx hpar l => nonWS (origContents (chunkSubsections m hpfx hpar l)) =
      nonWS (forestContents l)) ?_ ?_ ?_ hpfx hpar s
  · intro hpfx hpar t u c lv subs ih
    simp only [chunk_markdown_section]
    simp only [origContents, List.map_append, List.flatten_append]
    rw [nonWS_append]
    have h1 := ownChunks_orig m (create_chunk_heading hpfx t) t c (resolveRootTitle hpar t)
    simp only [origContents] at h1 ih
    rw [h1, ih]
    simp only [treeContents]
    rw [nonWS_append]
  · intro hpfx hpar
    simp [chunkSubsections, origContents, forestContents, nonWS]
  · intro hpfx hpar s rest ih1 ih2
    simp only [chunkSubsections]
    simp only [origContents, List.map_append, List.flatten_append] at ih1 ih2 ⊢
    rw [nonWS_append, ih1, ih2, forestContents, nonWS_append]

theorem chunk_root_some (m : Option Int) (hpfx : Option Str) (r : Str)
    (s : MarkdownSection) :
    ∀ c ∈ chunk_markdown_section m hpfx (some r) s, c.root_title = r := by
  refine chunk_markdown_section.induct m
    (fun hpfx hpar s => ∀ r, hpar = some r →
      ∀ c ∈ chunk_markdown_section m hpfx hpar s, c.root_title = r)
    (fun hpfx hpar l => ∀ r, hpar = some r →
      ∀ c ∈ chunkSubsections m hpfx hpar l, c.root_title = r) ?_ ?_ ?_ hpfx (some r) s r rfl
  · intro hpfx hpar t u c lv subs ih r hr ck hck
    subst hr
    simp only [chunk_markdown_section] at hck
    rcases List.mem_append.mp hck with hck | hck
    · have := ownChunks_root m (create_chunk_heading hpfx t) t c (resolveRootTitle (some r) t)
      rw [this ck hck]
      rfl
    · exact ih r rfl ck hck
  · intro hpfx hpar r hr c hc
    simp [chunkSubsections] at hc
  · intro hpfx hpar s rest ih1 ih2 r hr c hc
    simp only [chunkSubsections] at hc
    rcases List.mem_append.mp hc with hc | hc
    · exact ih1 r hr c hc
    · exact ih2 r hr c hc

theorem chunk_bound (mi : Int) (hm : 0 < mi) (hpfx hpar : Option Str)
    (s : MarkdownSection) :
    ∀ c ∈ chunk_markdown_section (some mi) hpfx hpar s,
      (c.original_content.length : Int) ≤ mi ∨ '\n' ∉ c.original_content := by
  refine chunk_markdown_section.induct (some mi)
    (fun hpfx hpar s => ∀ c ∈ chunk_markdown_section (some mi) hpfx hpar s,
      (c.original_content.length : Int) ≤ mi ∨ '\n' ∉ c.original_content)
    (fun hpfx hpar l => ∀ c ∈ chunkSubsections (some mi) hpfx hpar l,
      (c.original_content.length : Int) ≤ mi ∨ '\n' ∉ c.original_content) ?_ ?_ ?_ hpfx hpar s
  · intro hpfx hpar t u c lv subs ih ck hck
    simp only [chunk_markdown_section] at hck
    rcases List.mem_append.mp hck with hck | hck
    · exact ownChunks_bound mi hm _ _ _ _ ck hck
    · exact ih ck hck
  · intro hpfx hpar c hc
    simp [chunkSubsections] at hc
  · intro hpfx hpar s rest ih1 ih2 c hc
    simp only [chunkSubsections] at hc
    rcases List.mem_append.mp hc with hc | hc
    · exact ih1 c hc
    · exact ih2 c hc

/-! ### Nesting invariant lemmas -/

theorem levelsAbove_append (l : Int) (a b : List MarkdownSection) :
    levelsAbove l (a ++ b) = (levelsAbove l a && levelsAbove l b) := by
  induction a with
  | nil => simp [levelsAbove]
  | cons s rest ih => simp [levelsAbove, ih, Bool.and_assoc]

theorem forestWellNested_append (a b : List MarkdownSection) :
    forestWellNested (a ++ b) = (forestWellNested a && forestWellNested b) := by
  induction a with
  | nil => simp [forestWellNested]
  | cons s rest ih => simp [forestWellNested, ih, Bool.and_assoc]

theorem wellNested_of_leaf (s : MarkdownSection) (h : s.sub_sections = []) :
    wellNested s = true := by
  obtain ⟨t, u, ct, l, subs⟩ := s
  simp only [MarkdownSection.sub_sections] at h
  subst h
  simp [wellNested, levelsAbove, forestWellNested]

theorem wellNested_attachLast {prev cur : MarkdownSection}
    (hp : wellNested prev = true) (hc : wellNested cur = true)
    (hl : prev.level < cur.level) : wellNested (attachLast prev cur) = true := by
  obtain ⟨t, u, ct, l, subs⟩ := prev
  simp only [MarkdownSection.level] at hl
  simp only [wellNested, Bool.and_eq_true] at hp
  simp only [attachLast, wellNested, levelsAbove_append, forestWellNested_append,
    levelsAbove, forestWellNested, Bool.and_eq_true, decide_eq_true_eq]
  exact ⟨⟨hp.1, hl, trivial⟩, hp.2, hc, trivial⟩

theorem collapseLoop_wellNested (sections : List MarkdownSection) (index : Nat) :
    (∀ s ∈ sections, wellNested s = true) →
    ∀ s ∈ collapseLoop sections index, wellNested s = true := by
  induction sections, index using collapseLoop.induct with
  | case1 sections =>
    intro hall
    rw [collapseLoop.eq_def]
    simpa using hall
  | case2 sections index hne hlt hcond ih =>
    intro hall
    rw [collapseLoop.eq_def, if_neg hne, dif_pos hlt, if_pos hcond]
    refine ih ?_
    intro s hs
    have hs2 := (List.eraseIdx_sublist _ index).mem hs
    rcases List.mem_or_eq_of_mem_set hs2 with hs3 | rfl
    · exact hall s hs3
    · exact wellNested_attachLast (hall _ (List.getElem_mem _))
        (hall _ (List.getElem_mem _)) hcond
  | case3 sections index hne hlt hcond ih =>
    intro hall
    rw [collapseLoop.eq_def, if_neg hne, dif_pos hlt, if_neg hcond]
    exact ih hall
  | case4 sections index hne hnlt =>
    intro hall
    rw [collapseLoop.eq_def, if_neg hne, dif_neg hnlt]
    exact hall

/-! ### Pre-order decomposition lemmas -/

theorem chunk_desc (a b : MarkdownSection) (hd : Desc a b) :
    ∀ (m : Option Int) (hpfx hpar : Option Str), ∃ (hpfx2 hpar2 : Option Str)
      (l1 l2 : List Chunk),
      chunk_markdown_section m hpfx hpar a =
        ownChunks m (create_chunk_heading hpfx a.title) a.title a.content
            (resolveRootTitle hpar a.title) ++
          (l1 ++ (chunk_markdown_section m hpfx2 hpar2 b ++ l2)) := by
  induction hd with
  | child hmem =>
    intro m hpfx hpar
    rename_i a' b'
    obtain ⟨p, q, hpq⟩ := List.mem_iff_append.mp hmem
    refine ⟨some (create_chunk_heading hpfx a'.title),
      some (resolveRootTitle hpar a'.title),
      List.flatten (p.map (chunk_markdown_section m
        (some (create_chunk_heading hpfx a'.title))
        (some (resolveRootTitle hpar a'.title)))),
      List.flatten (q.map (chunk_markdown_section m
        (some (create_chunk_heading hpfx a'.title))
        (some (resolveRootTitle hpar a'.title)))), ?_⟩
    rw [chunk_markdown_section_unfold, chunkSubsections_eq_flatten, hpq]
    simp [List.append_assoc]
  | step hmem hd ih =>
    intro m hpfx hpar
    rename_i a' c' b'
    obtain ⟨p, q, hpq⟩ := List.mem_iff_append.mp hmem
    obtain ⟨h2, r2, l1', l2', hc⟩ := ih m
      (some (create_chunk_heading hpfx a'.title))
      (some (resolveRootTitle hpar a'.title))
    refine ⟨h2, r2,
      List.flatten (p.map (chunk_markdown_section m
        (some (create_chunk_heading hpfx a'.title))
        (some (resolveRootTitle hpar a'.title)))) ++
        (ownChunks m (create_chunk_heading
            (some (create_chunk_heading hpfx a'.title)) c'.title) c'.title c'.content
          (resolveRootTitle (some (resolveRootTitle hpar a'.title)) c'.title) ++ l1'),
      l2' ++ List.flatten (q.map (chunk_markdown_section m
        (some (create_chunk_heading hpfx a'.title))
        (some (resolveRootTitle hpar a'.title)))), ?_⟩
    rw [chunk_markdown_section_unfold, chunkSubsections_eq_flatten, hpq]
    simp only [List.map_append, List.flatten_append, List.map_cons, List.flatten_cons]
    rw [hc]
    simp [List.append_assoc]

theorem chunk_list_orig (m : Option Int) (hpfx hpar : Option Str) :
    ∀ (l : List MarkdownSection),
    nonWS (origContents (List.flatten (l.map (chunk_markdown_section m hpfx hpar)))) =
      nonWS (forestContents l) := by
  intro l
  induction l with
  | nil => simp [origContents, forestContents, nonWS]
  | cons s rest ih =>
    simp only [List.map_cons, List.flatten_cons, origContents, List.map_append,
      List.flatten_append]
    rw [nonWS_append]
    have h1 := chunk_orig m hpfx hpar s
    simp only [origContents] at h1 ih
    rw [h1, ih, forestContents, nonWS_append]

/-! ### Implicit-root lemmas -/

/-- The folding loop never changes the head section's title, url, level or
subsections: content tokens only rewrite the content of the last section and
heading tokens only append new sections. -/
theorem foldTokensAux_head (t : Str) (u : Option Str) (l : Int)
    (s0 : List MarkdownSection) :
    ∀ (ts : List Token) (c : Str) (tl : List MarkdownSection),
    ∃ (c2 : Str) (tl2 : List MarkdownSection),
      foldTokensAux (MarkdownSection.mk t u c l s0 :: tl) ts =
        MarkdownSection.mk t u c2 l s0 :: tl2 := by
  intro ts
  induction ts with
  | nil => intro c tl; exact ⟨c, tl, rfl⟩
  | cons tk rest ih =>
    intro c tl
    cases tk with
    | heading lvl text =>
      simp only [foldTokensAux, List.cons_append]
      exact ih c (tl ++ [MarkdownSection.mk
        (maybe_extract_title_url_from_heading text).1
        (maybe_extract_title_url_from_heading text).2 [] lvl []])
    | content text =>
      simp only [foldTokensAux]
      rw [if_pos (by simp)]
      cases tl with
      | nil =>
        simp only [updateLast, MarkdownSection.withContent, MarkdownSection.content]
        exact ih _ []
      | cons b t2 =>
        simp only [updateLast]
        exact ih c (updateLast
          (fun s => s.withContent (pyStrip (s.content ++ '\n' :: pyStrip text)))
          (b :: t2))

/-- The collapse pass never removes the head section and never changes its
title, url, content or level: attaching into the head only extends its
subsections. -/
theorem collapseLoop_head (t : Str) (u : Option Str) (c : Str) (l : Int) :
    ∀ (sections : List MarkdownSection) (index : Nat)
      (s0 tl : List MarkdownSection),
      sections = MarkdownSection.mk t u c l s0 :: tl →
      ∃ (s2 : List MarkdownSection) (tl2 : List MarkdownSection),
        collapseLoop sections index = MarkdownSection.mk t u c l s2 :: tl2 := by
  intro sections index
  induction sections, index using collapseLoop.induct with
  | case1 sections =>
    intro s0 tl h
    have hz : collapseLoop sections 0 = sections := by
      rw [collapseLoop.eq_def]
      simp
    rw [hz]
    exact ⟨s0, tl, h⟩
  | case2 sections index hne hlt hcond ih =>
    intro s0 tl h
    rw [collapseLoop.eq_def, if_neg hne, dif_pos hlt, if_pos hcond]
    obtain ⟨j, rfl⟩ : ∃ j, index = j + 1 :=
      ⟨index - 1, (Nat.succ_pred_eq_of_pos (Nat.pos_of_ne_zero hne)).symm⟩
    subst h
    cases j with
    | zero =>
      cases tl with
      | nil => simp at hlt
      | cons x tl2 =>
        refine ih (s0 ++ [x]) tl2 ?_
        simp [List.set_cons_zero, List.eraseIdx_cons_succ, List.eraseIdx_cons_zero,
          attachLast, List.getElem_cons_zero, List.getElem_cons_succ]
    | succ j2 =>
      have hlen : j2 + 1 < tl.length := by
        simp only [List.length_cons] at hlt
        omega
      refine ih s0
        ((tl.set j2 (attachLast (tl.get ⟨j2, by omega⟩)
            (tl.get ⟨j2 + 1, hlen⟩))).eraseIdx (j2 + 1)) ?_
      simp [List.set_cons_succ, List.eraseIdx_cons_succ, List.getElem_cons_succ,
        Nat.add_sub_cancel, List.get_eq_getElem]
  | case3 sections index hne hlt hcond ih =>
    intro s0 tl h
    rw [collapseLoop.eq_def, if_neg hne, dif_pos hlt, if_neg hcond]
    exact ih s0 tl h
  | case4 sections index hne hnlt =>
    intro s0 tl h
    rw [collapseLoop.eq_def, if_neg hne, dif_neg hnlt]
    exact ⟨s0, tl, h⟩

theorem create_chunk_heading_none_nil : create_chunk_heading none [] = [] := rfl

theorem resolveRootTitle_none_nil : resolveRootTitle none [] = [] := rfl

/-- The own chunks of a section with empty title, chunked at the top level,
are exactly its content pieces with no synthesized heading line, empty
original_title and empty root_title. -/
theorem ownChunks_empty_title (m : Option Int) (c : Str) :
    ∃ pieces : List Str, ownChunks m [] [] c [] =
      pieces.map (fun p => Chunk.mk p p [] []) := by
  unfold ownChunks
  split
  · refine ⟨split_text c (m.getD 0), ?_⟩
    rw [show (fun p : Nat × Str =>
        Chunk.mk (format_section_with_heading [] p.2 (some (p.1 + 1))) p.2
          (format_split_title [] (p.1 + 1)) []) =
      (fun p : Str => Chunk.mk p p [] []) ∘ Prod.snd from rfl]
    rw [← List.map_map, List.enum_map_snd]
  · exact ⟨[c], rfl⟩

/-! ### The claims -/

/-- Claim C1: for every markdown input, concatenating the `original_content`
fields of all emitted chunks in emission order reproduces, modulo whitespace
trimming, the full non-heading text of the document — the non-whitespace
characters of that concatenation equal, in order, the non-whitespace
characters of the concatenated content tokens, so every non-heading content
token appears in exactly one chunk's `original_content` (whole or across its
"Part" pieces), with no duplication and no omission. -/
theorem c1_reassembly (maxChunkSize : Int) (content : Str) :
    nonWS (origContents (split maxChunkSize content)) =
      nonWS (tokensText (blockParse content)) := by
  unfold split
  rw [chunk_list_orig]
  unfold parse_markdown_into_sections
  rw [collapseLoop_contents,
    forestContents_of_leaves _ (foldTokensAux_leaves _ [] (by simp))]
  have h := foldTokensAux_contents (blockParse content) []
  simpa [flatContents, nonWS] using h

/-- Claim C2: with a positive `max_chunk_size`, every emitted chunk's
`original_content` — in particular each piece produced by splitting an
oversized section — has length at most `max_chunk_size`, except where the
piece is a single indivisible unit (a newline-free line the Text Splitter
cannot divide further), which is allowed to overrun. -/
theorem c2_size_bound (maxChunkSize : Int) (hpfx hpar : Option Str)
    (s : MarkdownSection) (c : Chunk) (hm : 0 < maxChunkSize)
    (hc : c ∈ chunk_markdown_section (some maxChunkSize) hpfx hpar s) :
    (c.original_content.length : Int) ≤ maxChunkSize ∨
      '\n' ∉ c.original_content := by
  exact chunk_bound maxChunkSize hm hpfx hpar s c hc

/-- Witness for C2: a section whose 14-character content exceeds
`max_chunk_size = 5` produces a first split chunk of at most 5 characters. -/
theorem c2_size_bound_witness :
    (0 : Int) < 5 ∧
    Chunk.mk (ofStr "# T Part 1\nab cd") (ofStr "ab cd") (ofStr "T Part 1") (ofStr "T") ∈
      chunk_markdown_section (some 5) none none
        (MarkdownSection.mk (ofStr "T") none (ofStr "ab cd\nef\ngh ij") 1 []) ∧
    (((ofStr "ab cd").length : Int) ≤ 5 ∨ '\n' ∉ ofStr "ab cd") := by
  have h1 : (0 : Int) < 5 := by decide
  have h2 : Chunk.mk (ofStr "# T Part 1\nab cd") (ofStr "ab cd") (ofStr "T Part 1")
      (ofStr "T") ∈ chunk_markdown_section (some 5) none none
        (MarkdownSection.mk (ofStr "T") none (ofStr "ab cd\nef\ngh ij") 1 []) := by
    simp +decide [chunk_markdown_section, chunkSubsections, ownChunks, split_text,
      splitLines, mergeLinesAux, create_chunk_heading, create_root_heading,
      resolveRootTitle, format_split_title, format_section_with_heading,
      strOptTruthy, intOptTruthy, natOptTruthy, ofStr]
  exact ⟨h1, h2, c2_size_bound 5 none none _ _ h1 h2⟩

/-- Claim C3: the root title is fixed exactly once — at the first call of the
recursion, where no heading_parent is passed in, it is fixed to the section's
title if non-empty and the empty string otherwise — and every deeper
recursive call receives the value unchanged, so every chunk in the subtree
carries exactly the fixed value as its `root_title`. -/
theorem c3_root_title_fixed_once :
    (∀ (m : Option Int) (hpfx : Option Str) (s : MarkdownSection) (c : Chunk),
      c ∈ chunk_markdown_section m hpfx none s →
        c.root_title = create_root_heading s.title) ∧
    (∀ (m : Option Int) (hpfx : Option Str) (r : Str) (s : MarkdownSection)
      (c : Chunk), c ∈ chunk_markdown_section m hpfx (some r) s →
        c.root_title = r) := by
  constructor
  · intro m hpfx s c hc
    rw [chunk_markdown_section_unfold] at hc
    rcases List.mem_append.mp hc with hc | hc
    · have := ownChunks_root m (create_chunk_heading hpfx s.title) s.title s.content
        (resolveRootTitle none s.title) c hc
      rw [this]
      rfl
    · rw [chunkSubsections_eq_flatten] at hc
      obtain ⟨lc, hlc, hcin⟩ := List.mem_flatten.mp hc
      obtain ⟨x, hx, rfl⟩ := List.mem_map.mp hlc
      have := chunk_root_some m (some (create_chunk_heading hpfx s.title))
        (resolveRootTitle none s.title) x c hcin
      rw [this]
      rfl
  · intro m hpfx r s c hc
    exact chunk_root_some m hpfx r s c hc

/-- Witness for C3: on a two-level tree the subsection's chunk carries the
top-level root title fixed at the first call. -/
theorem c3_root_title_witness :
    Chunk.mk (ofStr "# A > B\ny") (ofStr "y") (ofStr "B") (ofStr "A") ∈
      chunk_markdown_section (some 2000) none none
        (MarkdownSection.mk (ofStr "A") none (ofStr "x") 1
          [MarkdownSection.mk (ofStr "B") none (ofStr "y") 2 []]) ∧
    (Chunk.mk (ofStr "# A > B\ny") (ofStr "y") (ofStr "B") (ofStr "A")).root_title =
      create_root_heading (MarkdownSection.mk (ofStr "A") none (ofStr "x") 1
        [MarkdownSection.mk (ofStr "B") none (ofStr "y") 2 []]).title := by
  have h2 : Chunk.mk (ofStr "# A > B\ny") (ofStr "y") (ofStr "B") (ofStr "A") ∈
      chunk_markdown_section (some 2000) none none
        (MarkdownSection.mk (ofStr "A") none (ofStr "x") 1
          [MarkdownSection.mk (ofStr "B") none (ofStr "y") 2 []]) := by
    simp +decide [chunk_markdown_section, chunkSubsections, ownChunks, split_text,
      splitLines, mergeLinesAux, create_chunk_heading, create_root_heading,
      resolveRootTitle, format_split_title, format_section_with_heading,
      strOptTruthy, intOptTruthy, natOptTruthy, ofStr]
  exact ⟨h2, c3_root_title_fixed_once.1 (some 2000) none _ _ h2⟩

/-- Claim C4: the emitted chunk list is in pre-order depth-first order — a
section's own chunk(s) come first, followed by the subtree chunk lists of its
subsections in document order; consequently, whenever `A` is an ancestor of
`B`, all chunks emitted for `A` itself precede every chunk emitted for `B`. -/
theorem c4_preorder :
    (∀ (m : Option Int) (hpfx hpar : Option Str) (s : MarkdownSection),
      chunk_markdown_section m hpfx hpar s =
        ownChunks m (create_chunk_heading hpfx s.title) s.title s.content
            (resolveRootTitle hpar s.title) ++
          List.flatten (s.sub_sections.map (chunk_markdown_section m
            (some (create_chunk_heading hpfx s.title))
            (some (resolveRootTitle hpar s.title))))) ∧
    (∀ (a b : MarkdownSection), Desc a b →
      ∀ (m : Option Int) (hpfx hpar : Option Str), ∃ (hpfx2 hpar2 : Option Str)
        (l1 l2 : List Chunk),
        chunk_markdown_section m hpfx hpar a =
          ownChunks m (create_chunk_heading hpfx a.title) a.title a.content
              (resolveRootTitle hpar a.title) ++
            (l1 ++ (chunk_markdown_section m hpfx2 hpar2 b ++ l2))) := by
  constructor
  · intro m hpfx hpar s
    rw [chunk_markdown_section_unfold, chunkSubsections_eq_flatten]
  · exact fun a b hd => chunk_desc a b hd

/-- Witness for C4: in the concrete two-level tree `secA`, the subsection
`secB` is a descendant and its chunks appear after `secA`'s own chunks. -/
theorem c4_preorder_witness :
    Desc secA secB ∧
    (∃ (hpfx2 hpar2 : Option Str) (l1 l2 : List Chunk),
      chunk_markdown_section (some 2000) none none secA =
        ownChunks (some 2000) (create_chunk_heading none secA.title) secA.title
            secA.content (resolveRootTitle none secA.title) ++
          (l1 ++ (chunk_markdown_section (some 2000) hpfx2 hpar2 secB ++ l2))) := by
  have hd : Desc secA secB := Desc.child (by simp [secA, MarkdownSection.sub_sections])
  exact ⟨hd, c4_preorder.2 secA secB hd (some 2000) none none⟩

/-- Claim C5: every section tree returned by the Section Builder satisfies
the nesting invariant — each child's level is strictly greater than its
parent's level, though not necessarily by exactly one — for every token
stream, including non-monotonic heading sequences; the right-to-left
delete-and-rescan collapse attaches a section to the immediately preceding
section exactly when its level is strictly greater, so the final forest is
well nested throughout. -/
theorem c5_nesting_invariant (tokens : List Token) (s : MarkdownSection)
    (hs : s ∈ parse_markdown_into_sections tokens) : wellNested s = true := by
  unfold parse_markdown_into_sections at hs
  refine collapseLoop_wellNested _ _ ?_ s hs
  intro x hx
  exact wellNested_of_leaf x (foldTokensAux_leaves tokens [] (by simp) x hx)

/-- Witness for C5: the non-monotonic heading sequence H1, H3, H2 collapses
into a single well-nested tree with both deeper headings under the H1 root. -/
theorem c5_nesting_invariant_witness :
    MarkdownSection.mk (ofStr "A") none [] 1
        [MarkdownSection.mk (ofStr "B") none [] 3 [],
         MarkdownSection.mk (ofStr "C") none [] 2 []] ∈
      parse_markdown_into_sections
        [Token.heading 1 (ofStr "A"), Token.heading 3 (ofStr "B"),
         Token.heading 2 (ofStr "C")] ∧
    wellNested (MarkdownSection.mk (ofStr "A") none [] 1
        [MarkdownSection.mk (ofStr "B") none [] 3 [],
         MarkdownSection.mk (ofStr "C") none [] 2 []]) = true := by
  have h : MarkdownSection.mk (ofStr "A") none [] 1
        [MarkdownSection.mk (ofStr "B") none [] 3 [],
         MarkdownSection.mk (ofStr "C") none [] 2 []] ∈
      parse_markdown_into_sections
        [Token.heading 1 (ofStr "A"), Token.heading 3 (ofStr "B"),
         Token.heading 2 (ofStr "C")] := by
    simp +decide [parse_markdown_into_sections, foldTokensAux, collapseLoop,
      maybe_extract_title_url_from_heading, is_heading_a_link, sanitize_title,
      htmlUnescape, unescapeAux, pyStrip, findLink, attachLast,
      MarkdownSection.level, ofStr]
  exact ⟨h, c5_nesting_invariant _ _ h⟩

/-- Claim C6 (code evaluation at the failing input): a non-positive
`max_chunk_size` is not rejected — `BaseChunker.__init__` stores it without
validation and no ConfigurationError exists anywhere; with `max_chunk_size =
0` the Python truthiness check `if max_chars` disables splitting entirely and
one unbounded chunk is emitted, and with a negative value the split
degenerates into one piece per line. -/
theorem c6_nonpositive_max_accepted :
    (split 0 (ofStr "# A\n0123456789012345678901234567890")).map
        Chunk.original_content = [ofStr "0123456789012345678901234567890"] ∧
    (split (-1) (ofStr "# T\nab\ncd")).map Chunk.original_content =
      [ofStr "ab", ofStr "cd"] := by
  constructor <;>
    simp +decide [split, parse_markdown_into_sections, foldTokensAux, collapseLoop,
      blockParse, splitLines, blockParseLines, blockParseAccum, headingLevel, pyStrip,
      maybe_extract_title_url_from_heading, is_heading_a_link, sanitize_title,
      htmlUnescape, unescapeAux, ofStr, chunk_markdown_section, chunkSubsections,
      ownChunks, create_chunk_heading, create_root_heading, resolveRootTitle,
      format_split_title, format_section_with_heading, split_text, mergeLinesAux,
      intOptTruthy, strOptTruthy, natOptTruthy, updateLast, attachLast,
      MarkdownSection.withContent, MarkdownSection.content, MarkdownSection.level,
      MarkdownSection.title, MarkdownSection.sub_sections, findLink, scanBracket,
      scanToParen, Token.contentText]

/-- Claim C7 (code evaluation at the failing input): a heading token with a
zero or negative level is not rejected — `_parse_markdown_into_sections`
contains no assertion on `token["attrs"]["level"]` and silently builds a
section carrying the invalid level. -/
theorem c7_level_not_validated :
    parse_markdown_into_sections [Token.heading 0 (ofStr "Z")] =
      [MarkdownSection.mk (ofStr "Z") none [] 0 []] ∧
    parse_markdown_into_sections [Token.heading (-2) (ofStr "Z")] =
      [MarkdownSection.mk (ofStr "Z") none [] (-2) []] := by
  constructor <;>
    simp +decide [parse_markdown_into_sections, foldTokensAux, collapseLoop,
      maybe_extract_title_url_from_heading, is_heading_a_link, sanitize_title,
      htmlUnescape, unescapeAux, pyStrip, findLink, scanBracket, scanToParen,
      attachLast, MarkdownSection.level, ofStr]

/-- Counterexample to claim C8 as stated: for the link heading
`"## [C# API](https://x.co)"` the Title Extractor does not return the link
text itself — `sanitize_title` removes the `#` from `"C# API"` and yields
`"C API"`. -/
theorem c8_counterexample :
    maybe_extract_title_url_from_heading (ofStr "## [C# API](https://x.co)") =
      (ofStr "C API", some (ofStr "https://x.co")) ∧
    maybe_extract_title_url_from_heading (ofStr "## [C# API](https://x.co)") ≠
      (ofStr "C# API", some (ofStr "https://x.co")) := by
  constructor <;>
    simp +decide [maybe_extract_title_url_from_heading, is_heading_a_link,
      sanitize_title, htmlUnescape, unescapeAux, pyStrip, findLink, scanBracket,
      scanToParen, ofStr]

/-- Claim C8 (amended): for a heading line that is a link — after stripping
leading `#` markers and whitespace it starts with `[` and, trimmed of
trailing whitespace, ends with `)` — and in which a `[text](url)` occurrence
is found, the Title Extractor returns the sanitized text (HTML entities
unescaped, `#` characters removed, whitespace-trimmed) of the first
`[text](url)` occurrence as the title and the url as title_url; in
particular heading `"## [Getting Started](https://x.co/start)"` yields title
`"Getting Started"` and title_url `"https://x.co/start"`, and the clean
title (not the raw link markup) is what appears in descendant
heading-prefix strings. -/
theorem c8_link_extraction :
    (∀ (h t u : Str), is_heading_a_link h = true →
      findLink h = some (t, u) →
      maybe_extract_title_url_from_heading h = (sanitize_title t, some u)) ∧
    maybe_extract_title_url_from_heading
        (ofStr "## [Getting Started](https://x.co/start)") =
      (ofStr "Getting Started", some (ofStr "https://x.co/start")) ∧
    (parse_markdown_into_sections (blockParse
        (ofStr "## [Getting Started](https://x.co/start)\n### Sub\nbody"))).map
        MarkdownSection.title_url = [some (ofStr "https://x.co/start")] ∧
    (split 2000
        (ofStr "## [Getting Started](https://x.co/start)\n### Sub\nbody")).map
        Chunk.content =
      [ofStr "# Getting Started\n", ofStr "# Getting Started > Sub\nbody"] := by
  refine ⟨?_, ?_, ?_, ?_⟩
  · intro h t u hlink hfind
    unfold maybe_extract_title_url_from_heading
    rw [hlink, hfind]
    rfl
  · simp +decide [maybe_extract_title_url_from_heading, is_heading_a_link,
      sanitize_title, htmlUnescape, unescapeAux, pyStrip, findLink, scanBracket,
      scanToParen, ofStr]
  · simp +decide [parse_markdown_into_sections, foldTokensAux, collapseLoop,
      blockParse, splitLines, blockParseLines, blockParseAccum, headingLevel, pyStrip,
      maybe_extract_title_url_from_heading, is_heading_a_link, sanitize_title,
      htmlUnescape, unescapeAux, ofStr, findLink, scanBracket, scanToParen,
      attachLast, MarkdownSection.level, MarkdownSection.title_url, updateLast,
      MarkdownSection.withContent, MarkdownSection.content]
  · simp +decide [split, parse_markdown_into_sections, foldTokensAux, collapseLoop,
      blockParse, splitLines, blockParseLines, blockParseAccum, headingLevel, pyStrip,
      maybe_extract_title_url_from_heading, is_heading_a_link, sanitize_title,
      htmlUnescape, unescapeAux, ofStr, chunk_markdown_section, chunkSubsections,
      ownChunks, create_chunk_heading, create_root_heading, resolveRootTitle,
      format_split_title, format_section_with_heading, split_text, mergeLinesAux,
      intOptTruthy, strOptTruthy, natOptTruthy, updateLast, attachLast,
      MarkdownSection.withContent, MarkdownSection.content, MarkdownSection.level,
      MarkdownSection.title, MarkdownSection.sub_sections, findLink, scanBracket,
      scanToParen, Token.contentText]

/-- Witness for C8: the scenario heading satisfies both hypotheses of the
general statement and the extractor returns the sanitized link text and the
url. -/
theorem c8_link_extraction_witness :
    is_heading_a_link (ofStr "## [Getting Started](https://x.co/start)") = true ∧
    findLink (ofStr "## [Getting Started](https://x.co/start)") =
      some (ofStr "Getting Started", ofStr "https://x.co/start") ∧
    maybe_extract_title_url_from_heading
        (ofStr "## [Getting Started](https://x.co/start)") =
      (sanitize_title (ofStr "Getting Started"),
        some (ofStr "https://x.co/start")) := by
  have h1 : is_heading_a_link (ofStr "## [Getting Started](https://x.co/start)") =
      true := by decide
  have h2 : findLink (ofStr "## [Getting Started](https://x.co/start)") =
      some (ofStr "Getting Started", ofStr "https://x.co/start") := by decide
  exact ⟨h1, h2, c8_link_extraction.1 _ _ _ h1 h2⟩

/-- Claim C9: whenever content precedes the first heading — for every token
stream beginning with a content token — an implicit root section with empty
title, no title url and level 1 is created to hold it and heads the parsed
forest, and every one of that root's own chunks carries empty
`original_title`, empty `root_title` and content equal to its
`original_content` with no synthesized heading line; concretely, input
`"orphan text\n# A\nbody"` yields a first chunk with `original_title = ""`
and `content = "orphan text"`, and the second chunk's synthesized heading is
`"A"`. -/
theorem c9_orphan_text :
    (∀ (m : Option Int) (text : Str) (rest : List Token),
      ∃ (c2 : Str) (subs2 tl2 : List MarkdownSection) (pieces : List Str)
        (restChunks : List Chunk),
        parse_markdown_into_sections (Token.content text :: rest) =
          MarkdownSection.mk [] none c2 1 subs2 :: tl2 ∧
        chunk_markdown_section m none none
            (MarkdownSection.mk [] none c2 1 subs2) =
          pieces.map (fun p => Chunk.mk p p [] []) ++ restChunks) ∧
    parse_markdown_into_sections (blockParse (ofStr "orphan text\n# A\nbody")) =
      [MarkdownSection.mk [] none (ofStr "orphan text") 1 [],
       MarkdownSection.mk (ofStr "A") none (ofStr "body") 1 []] ∧
    split 2000 (ofStr "orphan text\n# A\nbody") =
      [Chunk.mk (ofStr "orphan text") (ofStr "orphan text") [] [],
       Chunk.mk (ofStr "# A\nbody") (ofStr "body") (ofStr "A") (ofStr "A")] := by
  refine ⟨?_, ?_, ?_⟩
  · intro m text rest
    have hstep : foldTokensAux [] (Token.content text :: rest) =
        foldTokensAux [MarkdownSection.mk [] none (pyStrip text) 1 []] rest := by
      simp [foldTokensAux]
    obtain ⟨c2, tl2, hf⟩ := foldTokensAux_head [] none 1 [] rest (pyStrip text) []
    obtain ⟨subs2, tl3, hc⟩ := collapseLoop_head [] none c2 1
      (MarkdownSection.mk [] none c2 1 [] :: tl2)
      ((MarkdownSection.mk [] none c2 1 [] :: tl2).length - 1) [] tl2 rfl
    obtain ⟨pieces, hown⟩ := ownChunks_empty_title m c2
    refine ⟨c2, subs2, tl3, pieces,
      chunkSubsections m (some []) (some [])
        (MarkdownSection.mk [] none c2 1 subs2).sub_sections, ?_, ?_⟩
    · unfold parse_markdown_into_sections
      rw [hstep, hf, hc]
    · rw [chunk_markdown_section_unfold]
      simp only [MarkdownSection.title, MarkdownSection.content,
        MarkdownSection.sub_sections, create_chunk_heading_none_nil,
        resolveRootTitle_none_nil]
      rw [hown]
  all_goals
    simp +decide [split, parse_markdown_into_sections, foldTokensAux, collapseLoop,
      blockParse, splitLines, blockParseLines, blockParseAccum, headingLevel, pyStrip,
      maybe_extract_title_url_from_heading, is_heading_a_link, sanitize_title,
      htmlUnescape, unescapeAux, ofStr, chunk_markdown_section, chunkSubsections,
      ownChunks, create_chunk_heading, create_root_heading, resolveRootTitle,
      format_split_title, format_section_with_heading, split_text, mergeLinesAux,
      intOptTruthy, strOptTruthy, natOptTruthy, updateLast, attachLast,
      MarkdownSection.withContent, MarkdownSection.content, MarkdownSection.level,
      MarkdownSection.title, MarkdownSection.sub_sections, findLink, scanBracket,
      scanToParen, Token.contentText]

/-- Claim C10: for the empty markdown string, `split` returns the empty
chunk list — the parsed token stream is empty, so no implicit section and no
chunk is created. -/
theorem c10_empty_input (maxChunkSize : Int) :
    split maxChunkSize (ofStr "") = [] ∧ blockParse (ofStr "") = [] ∧
    parse_markdown_into_sections [] = [] := by
  refine ⟨?_, ?_, ?_⟩ <;>
    simp [split, blockParse, splitLines, blockParseLines, blockParseAccum,
      headingLevel, pyStrip, parse_markdown_into_sections, foldTokensAux,
      collapseLoop]

end Chunker
